import Mathlib

/-!
Shallow embedding of the `FlatTree` data structure from `src/FlatTree.h`.

A `FlatTree` owns two parallel sequences: `data` (node values, `m_data`) and
`parent` (per-node parent index, `m_parent_index`).  `std::vector` is modelled
by `List`, `std::size_t` indices by `Nat`.  Each definition below mirrors one
member function of the C++ class; comments name the member it embeds.

Modelling conventions:
* `assert`-guarded constructors are modelled as `Except`-returning functions
  (an assertion failure is a construction error).
* `FlatTree::getAllDescendantsNotFromRoot` recurses through a range-for loop
  over the very container it appends to (the loop end iterator is captured at
  loop entry, so the loop walks exactly the elements present when it starts,
  while recursive calls walk the whole grown container from its beginning).
  This recursion does not terminate on some inputs (any queried subtree of
  depth at least two), so it is embedded with an explicit fuel parameter;
  `none` means the C++ code does not return within the given fuel.
* `remove_node` writes `m_data[i] = m_data.back()` and pops.  When `i` is out
  of range the C++ write lands beyond `size()` (inside spare capacity) and is
  unobservable; `List.set` is the identity out of range, which matches the
  observable behaviour, and `dropLast` models `pop_back`.
-/

structure FlatTree (α : Type) where
  data : List α
  parent : List Nat
deriving DecidableEq, Repr

namespace FlatTree

variable {α : Type}

/-- `FlatTree::size`: number of nodes (`m_data.size()`). -/
def size (t : FlatTree α) : Nat := t.data.length

/-- `FlatTree::size_for_parallelization`: above this node count some scans run in parallel. -/
def sizeForParallelization : Nat := 2000

/-- `FlatTree::isValid`: the two collections have equal length and the root's
parent entry is `0`.  (The C++ reads `m_parent_index[0]` unconditionally; on an
empty collection that read has no defined value, and the check is modelled as
failing.) -/
def isValid (t : FlatTree α) : Bool :=
  (t.data.length == t.parent.length) && (t.parent[0]? == some 0)

/-- Construction error taxonomy for the assert-guarded constructors. -/
inductive ConstructionError where
  | lengthMismatch
  | invalidRoot
deriving DecidableEq, Repr

/-- The generic-container constructor `FlatTree(const C1&, const C2&)`
(lines 82-100): asserts equal sizes, copies both collections, then asserts
`m_parent_index[0] == 0`. -/
def fromSequencesGeneric (data : List α) (parent : List Nat) :
    Except ConstructionError (FlatTree α) :=
  if data.length ≠ parent.length then .error .lengthMismatch
  else if parent[0]? ≠ some 0 then .error .invalidRoot
  else .ok ⟨data, parent⟩

/-- The `std::vector`/`std::initializer_list` constructor specialization
(lines 123-128): asserts only that the sizes match; there is no root check. -/
def fromSequencesVector (data : List α) (parent : List Nat) :
    Except ConstructionError (FlatTree α) :=
  if data.length ≠ parent.length then .error .lengthMismatch
  else .ok ⟨data, parent⟩

/-- `FlatTree::getNumOfDescendantsSequential`: `std::count` of `p` over `m_parent_index`. -/
def getNumOfDescendantsSequential (t : FlatTree α) (p : Nat) : Nat :=
  t.parent.count p

/-- `FlatTree::getNumOfDescendantsParallel`: parallel `std::count`; it computes
the same value as the sequential scan (a deterministic reduction). -/
def getNumOfDescendantsParallel (t : FlatTree α) (p : Nat) : Nat :=
  t.parent.count p

/-- `FlatTree::getNumOfDescendants`: dispatches on the parallelization threshold. -/
def getNumOfDescendants (t : FlatTree α) (p : Nat) : Nat :=
  if t.size < sizeForParallelization then getNumOfDescendantsSequential t p
  else getNumOfDescendantsParallel t p

/-- `FlatTree::doesIndexExistSequential`: `std::find` of `i` over `m_parent_index`. -/
def doesIndexExistSequential (t : FlatTree α) (i : Nat) : Bool :=
  t.parent.contains i

/-- `FlatTree::doesIndexExistParallel`: parallel `std::find`, same result. -/
def doesIndexExistParallel (t : FlatTree α) (i : Nat) : Bool :=
  t.parent.contains i

/-- `FlatTree::doesIndexExist`: dispatches on the parallelization threshold. -/
def doesIndexExist (t : FlatTree α) (i : Nat) : Bool :=
  if t.size < sizeForParallelization then doesIndexExistSequential t i
  else doesIndexExistParallel t i

/-- `FlatTree::isLeaf`: no first-generation descendants.  (The C++ asserts
`xi_index < m_parent_index.size()` as a precondition.) -/
def isLeaf (t : FlatTree α) (i : Nat) : Bool :=
  getNumOfDescendants t i == 0

/-- `FlatTree::getParentIndex`: `m_parent_index[i]` for `i > 0`, else `0`.
(The C++ asserts validity and `i < m_parent_index.size()` as preconditions.) -/
def getParentIndex (t : FlatTree α) (i : Nat) : Nat :=
  if 0 < i then t.parent.getD i 0 else 0

/-- The indices collected by the scan loop of `FlatTree::getDescendants`:
`i` runs from `1` to `size()-1` and is kept when `m_parent_index[i]` equals
the queried parent. -/
def kidsOf (t : FlatTree α) (p : Nat) : List Nat :=
  (List.range t.data.length).filter (fun i => i != 0 && t.parent[i]? == some p)

/-- `FlatTree::getDescendants` (lines 227-248): first-generation descendants.
Returns `false` (appending nothing) when the tree is invalid or the queried
parent is the root; otherwise appends all matching indices in ascending scan
order and returns whether at least one was found. -/
def getDescendants (t : FlatTree α) (p : Nat) (acc : List Nat) : Bool × List Nat :=
  if isValid t = false then (false, acc)
  else if p = 0 then (false, acc)
  else (!(kidsOf t p).isEmpty, acc ++ kidsOf t p)

/-- `FlatTree::getAllDescendantsFromRoot` (lines 511-524): appends every
non-root index `1, ..., size()-1`; `true` iff the loop ran at least once. -/
def getAllDescendantsFromRoot (t : FlatTree α) (acc : List Nat) : Bool × List Nat :=
  (!(List.range' 1 (t.data.length - 1)).isEmpty, acc ++ List.range' 1 (t.data.length - 1))

/-- The range-for loop of `FlatTree::getAllDescendantsNotFromRoot`: walks the
snapshot `elems` of the output container taken at loop entry, recursing (`f`)
on each element against the current, growing container. -/
def gadLoopWith (f : Nat → List Nat → Option (Bool × List Nat)) :
    List Nat → List Nat → Option (List Nat)
  | [], cur => some cur
  | i :: rest, cur =>
    match f i cur with
    | none => none
    | some (_, cur2) => gadLoopWith f rest cur2

/-- `FlatTree::getAllDescendants` together with
`FlatTree::getAllDescendantsNotFromRoot`, with explicit fuel (the C++
recursion does not terminate on every input).  `none` means the fuel ran out,
i.e. the C++ call has not returned. -/
def gadAux : Nat → FlatTree α → Nat → List Nat → Option (Bool × List Nat)
  | 0, _, _, _ => none
  | fuel + 1, t, p, acc =>
    if p = 0 then some (getAllDescendantsFromRoot t acc)
    else if (getDescendants t p acc).1 then
      (gadLoopWith (gadAux fuel t) (getDescendants t p acc).2
        (getDescendants t p acc).2).map (fun cur => (true, cur))
    else some (false, (getDescendants t p acc).2)

/-- `FlatTree::getAllDescendants` entry point, with fuel `size() + 1` (enough
for every terminating execution reachable through `remove`). -/
def getAllDescendants (t : FlatTree α) (p : Nat) (acc : List Nat) :
    Option (Bool × List Nat) :=
  gadAux (t.data.length + 1) t p acc

/-- `FlatTree::insert` (lines 283-293): fails when the parent index is out of
range or the tree is invalid, otherwise appends the value and the parent index. -/
def insert (t : FlatTree α) (p : Nat) (v : α) : Bool × FlatTree α :=
  if t.parent.length ≤ p ∨ isValid t = false then (false, t)
  else (true, ⟨t.data ++ [v], t.parent ++ [p]⟩)

/-- `FlatTree::remove_node` (lines 458-471): swap-with-last-and-pop on both
collections; removing the root is refused. -/
def remove_node (t : FlatTree α) (i : Nat) : FlatTree α :=
  if i = 0 then t
  else
    match t.data.getLast?, t.parent.getLast? with
    | some dv, some pv => ⟨(t.data.set i dv).dropLast, (t.parent.set i pv).dropLast⟩
    | _, _ => t

/-- `FlatTree::remove` (lines 316-332): collects all descendants of the target
(not the target itself), fails when there are none, otherwise removes the
collected indices one by one with `remove_node`.  `none` models a
non-terminating descendant collection. -/
def remove (t : FlatTree α) (i : Nat) : Option (Bool × FlatTree α) :=
  if t.parent.length ≤ i ∨ isValid t = false then some (false, t)
  else
    match getAllDescendants t i [] with
    | none => none
    | some (false, _) => some (false, t)
    | some (true, ds) => some (true, ds.foldl remove_node t)

/-- `FlatTree::clear`: resets to a single-root tree keeping the current root value. -/
def clear (t : FlatTree α) : FlatTree α :=
  ⟨t.data.take 1, [0]⟩

/-- `std::vector::resize` semantics: truncate or extend with a default value. -/
def resizeList {β : Type} (l : List β) (n : Nat) (d : β) : List β :=
  l.take n ++ List.replicate (n - l.length) d

/-- `FlatTree::resize` (lines 193-196): resizes both collections; new value
slots take a default value `d` (`T()` in C++) and new parent slots take `0`
(value-initialized `std::size_t`). -/
def resize (t : FlatTree α) (n : Nat) (d : α) : FlatTree α :=
  ⟨resizeList t.data n d, resizeList t.parent n 0⟩

/-- The spec's tree-state invariant (section 3, invariants 1-3): equal lengths,
at least a root, and a self-referential root parent entry. -/
def invariant (t : FlatTree α) : Prop :=
  t.data.length = t.parent.length ∧ 1 ≤ t.data.length ∧ t.parent[0]? = some 0

instance (t : FlatTree α) : Decidable (invariant t) := by
  unfold invariant; infer_instance

/-! ### Basic lemmas about the embedded operations -/

theorem mem_of_getElem_eq_some {β : Type} {l : List β} {i : Nat} {a : β}
    (h : l[i]? = some a) : a ∈ l := by
  rcases List.getElem?_eq_some.mp h with ⟨hlt, rfl⟩
  exact List.getElem_mem hlt

theorem list_eq_singleton {β : Type} {l : List β} {a : β}
    (h1 : l.length = 1) (h2 : l[0]? = some a) : l = [a] := by
  rcases List.length_eq_one.mp h1 with ⟨x, rfl⟩
  simp at h2
  rw [h2]

theorem isValid_iff (t : FlatTree α) :
    isValid t = true ↔ t.data.length = t.parent.length ∧ t.parent[0]? = some 0 := by
  simp [isValid]

theorem invariant_iff_isValid (t : FlatTree α) :
    invariant t ↔ isValid t = true := by
  rw [isValid_iff]
  constructor
  · rintro ⟨h1, _, h3⟩; exact ⟨h1, h3⟩
  · rintro ⟨h1, h3⟩
    refine ⟨h1, ?_, h3⟩
    obtain ⟨hlt, _⟩ := List.getElem?_eq_some.mp h3
    omega

theorem getNumOfDescendants_eq_count (t : FlatTree α) (p : Nat) :
    getNumOfDescendants t p = t.parent.count p := by
  rw [getNumOfDescendants]
  split <;> rfl

theorem doesIndexExist_eq_contains (t : FlatTree α) (i : Nat) :
    doesIndexExist t i = t.parent.contains i := by
  rw [doesIndexExist]
  split <;> rfl

theorem mem_kidsOf (t : FlatTree α) (p k : Nat) :
    k ∈ kidsOf t p ↔ k < t.data.length ∧ k ≠ 0 ∧ t.parent[k]? = some p := by
  simp [kidsOf, List.mem_filter, List.mem_range, and_assoc]

theorem kidsOf_nodup (t : FlatTree α) (p : Nat) : (kidsOf t p).Nodup :=
  (List.nodup_range _).filter _

theorem kidsOf_sorted (t : FlatTree α) (p : Nat) :
    (kidsOf t p).Pairwise (· < ·) :=
  (List.pairwise_lt_range _).filter _

theorem kidsOf_length_lt (t : FlatTree α) (p : Nat) (h : 1 ≤ t.data.length) :
    (kidsOf t p).length < t.data.length := by
  have hsub : kidsOf t p ⊆ List.range' 1 (t.data.length - 1) := by
    intro k hk
    rcases (mem_kidsOf t p k).mp hk with ⟨h1, h2, _⟩
    rw [List.mem_range'_1]
    omega
  have := ((kidsOf_nodup t p).subperm hsub).length_le
  rw [List.length_range'] at this
  omega

theorem kidsOf_eq_nil_of_not_mem (t : FlatTree α) (i : Nat)
    (h : i ∉ t.parent) : kidsOf t i = [] := by
  apply List.filter_eq_nil_iff.mpr
  intro a _
  intro hpred
  rw [Bool.and_eq_true, beq_iff_eq] at hpred
  exact h (mem_of_getElem_eq_some hpred.2)

theorem getDescendants_root (t : FlatTree α) (acc : List Nat) :
    getDescendants t 0 acc = (false, acc) := by
  rw [getDescendants]
  split
  · rfl
  · simp

theorem getDescendants_of_valid (t : FlatTree α) (p : Nat) (acc : List Nat)
    (hv : isValid t = true) (hp : p ≠ 0) :
    getDescendants t p acc = (!(kidsOf t p).isEmpty, acc ++ kidsOf t p) := by
  rw [getDescendants, if_neg (by simp [hv]), if_neg hp]

theorem getDescendants_ext (t : FlatTree α) (p : Nat) (acc : List Nat) :
    ∃ ex, (getDescendants t p acc).2 = acc ++ ex := by
  rw [getDescendants]
  split
  · exact ⟨[], by simp⟩
  · split
    · exact ⟨[], by simp⟩
    · exact ⟨kidsOf t p, rfl⟩

/-! ### Analysis of the descendant-collection recursion

`getAllDescendantsNotFromRoot` recurses on every element of its growing output
container.  The lemmas below show: the container only ever grows
(`gadAux_mono`); a call on a node that already sits in the container and has a
child of its own never returns (`gadAux_stuck`); consequently a terminating
non-root call returns exactly the first-generation descendants, all of which
are leaves (`gadAux_ok_char`). -/

theorem gadLoopWith_mono (f : Nat → List Nat → Option (Bool × List Nat))
    (hf : ∀ i cur b ds, f i cur = some (b, ds) → ∃ ex, ds = cur ++ ex) :
    ∀ (elems cur cur' : List Nat), gadLoopWith f elems cur = some cur' →
      ∃ ex, cur' = cur ++ ex := by
  intro elems
  induction elems with
  | nil =>
    intro cur cur' h
    simp only [gadLoopWith, Option.some.injEq] at h
    exact ⟨[], by simp [h]⟩
  | cons i rest ih =>
    intro cur cur' h
    simp only [gadLoopWith] at h
    rcases hfi : f i cur with _ | ⟨b, cur2⟩
    · rw [hfi] at h; cases h
    · rw [hfi] at h
      obtain ⟨ex1, he1⟩ := hf i cur b cur2 hfi
      obtain ⟨ex2, he2⟩ := ih cur2 cur' h
      exact ⟨ex1 ++ ex2, by rw [he2, he1, List.append_assoc]⟩

theorem gadAux_mono :
    ∀ (fuel : Nat) (t : FlatTree α) (p : Nat) (acc : List Nat) (b : Bool)
      (ds : List Nat), gadAux fuel t p acc = some (b, ds) → ∃ ex, ds = acc ++ ex := by
  intro fuel
  induction fuel with
  | zero => intro t p acc b ds h; cases h
  | succ fuel ih =>
    intro t p acc b ds h
    by_cases hp : p = 0
    · simp only [gadAux, if_pos hp, getAllDescendantsFromRoot, Option.some.injEq,
        Prod.mk.injEq] at h
      exact ⟨_, h.2.symm⟩
    · obtain ⟨ex, hex⟩ := getDescendants_ext t p acc
      rcases hgd : getDescendants t p acc with ⟨gb, acc1⟩
      rw [hgd] at hex
      simp only [gadAux, if_neg hp, hgd] at h hex
      cases gb with
      | false =>
        simp only [Bool.false_eq_true, if_false, Option.some.injEq,
          Prod.mk.injEq] at h
        exact ⟨ex, by rw [← h.2]; exact hex⟩
      | true =>
        simp only [if_true] at h
        rcases hl : gadLoopWith (gadAux fuel t) acc1 acc1 with _ | cur
        · rw [hl] at h; cases h
        · rw [hl] at h
          simp only [Option.map_some', Option.some.injEq, Prod.mk.injEq] at h
          obtain ⟨ex2, he2⟩ := gadLoopWith_mono (gadAux fuel t)
            (fun i cur b ds hh => ih t i cur b ds hh) acc1 acc1 cur hl
          exact ⟨ex ++ ex2, by rw [← h.2, he2, hex, List.append_assoc]⟩

theorem gadLoopWith_stuck (t : FlatTree α)
    (f : Nat → List Nat → Option (Bool × List Nat))
    (hmono : ∀ i cur b ds, f i cur = some (b, ds) → ∃ ex, ds = cur ++ ex)
    (hdiv : ∀ i cur, i ≠ 0 → kidsOf t i ≠ [] → i ∈ cur → f i cur = none) :
    ∀ (elems cur : List Nat) (e : Nat), e ∈ elems → e ≠ 0 → kidsOf t e ≠ [] →
      e ∈ cur → gadLoopWith f elems cur = none := by
  intro elems
  induction elems with
  | nil => intro cur e he; cases he
  | cons i rest ih =>
    intro cur e hmem he hk hcur
    simp only [gadLoopWith]
    rcases hfi : f i cur with _ | ⟨b, cur2⟩
    · rfl
    · rcases List.mem_cons.mp hmem with rfl | hrest
      · rw [hdiv e cur he hk hcur] at hfi; cases hfi
      · obtain ⟨ex, rfl⟩ := hmono i cur b cur2 hfi
        exact ih (cur ++ ex) e hrest he hk (List.mem_append_left _ hcur)

theorem gadAux_stuck (t : FlatTree α) (hv : isValid t = true) :
    ∀ (fuel : Nat) (e : Nat) (cur : List Nat), e ≠ 0 → kidsOf t e ≠ [] →
      e ∈ cur → gadAux fuel t e cur = none := by
  intro fuel
  induction fuel with
  | zero => intros; rfl
  | succ fuel ih =>
    intro e cur he hk hec
    have hne : (kidsOf t e).isEmpty = false := by
      rcases hke : kidsOf t e with _ | _
      · exact absurd hke hk
      · rfl
    have hstuck : gadLoopWith (gadAux fuel t) (cur ++ kidsOf t e)
        (cur ++ kidsOf t e) = none :=
      gadLoopWith_stuck t (gadAux fuel t)
        (fun i c b ds hh => gadAux_mono fuel t i c b ds hh)
        (fun i c hi hki hic => ih i c hi hki hic)
        (cur ++ kidsOf t e) (cur ++ kidsOf t e) e
        (List.mem_append_left _ hec) he hk (List.mem_append_left _ hec)
    simp [gadAux, if_neg he, getDescendants_of_valid t e cur hv he, hne, hstuck]

theorem gadLoopWith_ok (t : FlatTree α) (hv : isValid t = true) (fuel : Nat) :
    ∀ (elems cur cur' : List Nat), (∀ e ∈ elems, e ∈ cur) →
      (∀ e ∈ elems, e ≠ 0) →
      gadLoopWith (gadAux fuel t) elems cur = some cur' →
      cur' = cur ∧ ∀ e ∈ elems, kidsOf t e = [] := by
  intro elems
  induction elems with
  | nil =>
    intro cur cur' _ _ h
    simp only [gadLoopWith, Option.some.injEq] at h
    exact ⟨h.symm, by simp⟩
  | cons i rest ih =>
    intro cur cur' hincur hne h
    simp only [gadLoopWith] at h
    rcases hfi : gadAux fuel t i cur with _ | ⟨b, cur2⟩
    · rw [hfi] at h; cases h
    · rw [hfi] at h
      have hi0 : i ≠ 0 := hne i (by simp)
      have hicur : i ∈ cur := hincur i (by simp)
      have hik : kidsOf t i = [] := by
        by_contra hkk
        rw [gadAux_stuck t hv fuel i cur hi0 hkk hicur] at hfi
        cases hfi
      have hcur2 : cur2 = cur := by
        cases fuel with
        | zero =>
          simp only [gadAux] at hfi
          exact Option.noConfusion hfi
        | succ m =>
          simp [gadAux, if_neg hi0, getDescendants_of_valid t i cur hv hi0,
            hik] at hfi
          exact hfi.2.symm
      subst hcur2
      obtain ⟨hcc, hrest⟩ := ih cur2 cur'
        (fun e he => hincur e (List.mem_cons_of_mem _ he))
        (fun e he => hne e (List.mem_cons_of_mem _ he)) h
      refine ⟨hcc, ?_⟩
      intro e he
      rcases List.mem_cons.mp he with rfl | hr
      · exact hik
      · exact hrest e hr

theorem gadAux_ok_char (t : FlatTree α) (hv : isValid t = true) (fuel p : Nat)
    (acc : List Nat) (b : Bool) (ds : List Nat) (hp : p ≠ 0)
    (hacc : ∀ a ∈ acc, a ≠ 0) (h : gadAux fuel t p acc = some (b, ds)) :
    (b = false ∧ ds = acc ∧ kidsOf t p = []) ∨
    (b = true ∧ kidsOf t p ≠ [] ∧ ds = acc ++ kidsOf t p ∧
      ∀ k ∈ acc ++ kidsOf t p, kidsOf t k = []) := by
  cases fuel with
  | zero => cases h
  | succ m =>
    by_cases hk : kidsOf t p = []
    · left
      simp [gadAux, if_neg hp, getDescendants_of_valid t p acc hv hp, hk] at h
      exact ⟨h.1, h.2.symm, hk⟩
    · right
      have hne : (kidsOf t p).isEmpty = false := by
        rcases hke : kidsOf t p with _ | _
        · exact absurd hke hk
        · rfl
      simp only [gadAux, if_neg hp, getDescendants_of_valid t p acc hv hp, hne,
        Bool.not_false, if_true] at h
      rcases hl : gadLoopWith (gadAux m t) (acc ++ kidsOf t p)
          (acc ++ kidsOf t p) with _ | cur
      · rw [hl] at h; cases h
      · rw [hl] at h
        simp only [Option.map_some', Option.some.injEq,
          Prod.mk.injEq] at h
        have helem0 : ∀ e ∈ acc ++ kidsOf t p, e ≠ 0 := by
          intro e he
          rcases List.mem_append.mp he with h1 | h2
          · exact hacc e h1
          · exact ((mem_kidsOf t p e).mp h2).2.1
        obtain ⟨hcur, hleaf⟩ := gadLoopWith_ok t hv m (acc ++ kidsOf t p)
          (acc ++ kidsOf t p) cur (fun e he => he) helem0 hl
        exact ⟨h.1.symm, hk, by rw [← h.2, hcur], hleaf⟩

/-! ### Effect of the swap-with-last removal loop -/

theorem remove_node_facts (t : FlatTree α) (k : Nat) (hk : k ≠ 0)
    (hlen : t.data.length = t.parent.length) (h2 : 2 ≤ t.data.length) :
    (remove_node t k).data.length = t.data.length - 1 ∧
    (remove_node t k).parent.length = t.parent.length - 1 ∧
    (remove_node t k).data[0]? = t.data[0]? ∧
    (remove_node t k).parent[0]? = t.parent[0]? := by
  rcases hld : t.data.getLast? with _ | dv
  · rw [List.getLast?_eq_none_iff] at hld
    rw [hld] at h2
    simp at h2
  rcases hlp : t.parent.getLast? with _ | pv
  · rw [List.getLast?_eq_none_iff] at hlp
    rw [hlp] at hlen
    simp only [List.length_nil] at hlen
    exfalso
    omega
  simp only [remove_node, if_neg hk, hld, hlp]
  refine ⟨by simp, by simp, ?_, ?_⟩
  · rw [List.getElem?_dropLast, List.length_set,
      if_pos (by omega : 0 < t.data.length - 1), List.getElem?_set_ne hk]
  · rw [List.getElem?_dropLast, List.length_set,
      if_pos (by omega : 0 < t.parent.length - 1), List.getElem?_set_ne hk]

theorem foldl_remove_node (ks : List Nat) :
    ∀ (t : FlatTree α), (∀ k ∈ ks, k ≠ 0) → t.data.length = t.parent.length →
      ks.length < t.data.length →
      (ks.foldl remove_node t).data.length = t.data.length - ks.length ∧
      (ks.foldl remove_node t).parent.length = t.parent.length - ks.length ∧
      (ks.foldl remove_node t).data[0]? = t.data[0]? ∧
      (ks.foldl remove_node t).parent[0]? = t.parent[0]? := by
  induction ks with
  | nil => intro t _ _ _; simp
  | cons k rest ih =>
    intro t hne hlen hlt
    simp only [List.foldl_cons]
    have hk0 : k ≠ 0 := hne k (by simp)
    have h2 : 2 ≤ t.data.length := by
      simp only [List.length_cons] at hlt
      omega
    obtain ⟨hd1, hp1, hd0, hp0⟩ := remove_node_facts t k hk0 hlen h2
    obtain ⟨hd2, hp2, hd02, hp02⟩ := ih (remove_node t k)
      (fun x hx => hne x (List.mem_cons_of_mem _ hx))
      (by rw [hd1, hp1, hlen])
      (by simp only [List.length_cons] at hlt; omega)
    simp only [List.length_cons]
    refine ⟨?_, ?_, by rw [hd02, hd0], by rw [hp02, hp0]⟩
    · rw [hd2, hd1]; omega
    · rw [hp2, hp1]; omega

/-- Collecting all descendants of the root returns every non-root index in
ascending storage order, succeeding exactly when some non-root node exists. -/
theorem getAllDescendants_from_root (t : FlatTree α) (acc : List Nat) :
    getAllDescendants t 0 acc =
      some (decide (2 ≤ t.data.length),
        acc ++ List.range' 1 (t.data.length - 1)) := by
  have hb : (!(List.range' 1 (t.data.length - 1)).isEmpty)
      = decide (2 ≤ t.data.length) := by
    by_cases h2 : 2 ≤ t.data.length
    · rcases hr : List.range' 1 (t.data.length - 1) with _ | ⟨a, l⟩
      · rw [List.range'_eq_nil] at hr
        omega
      · simp [h2]
    · have h1 : t.data.length - 1 = 0 := by omega
      simp [h1, h2]
  rw [getAllDescendants]
  simp only [gadAux, getAllDescendantsFromRoot, hb]
  simp

theorem flatTree_ext {t1 t2 : FlatTree α} (hd : t1.data = t2.data)
    (hp : t1.parent = t2.parent) : t1 = t2 := by
  cases t1
  cases t2
  simp_all

theorem resizeList_length {β : Type} (l : List β) (n : Nat) (d : β) :
    (resizeList l n d).length = n := by
  simp [resizeList]
  omega

/-! ### Claim theorems -/

/-- C2 counterexample: on the spec's example tree the code's
`getNumOfDescendants(0)` is not 2 — `std::count` also counts the root's own
self-referential parent entry (and `main.cpp` indeed asserts the count is 3). -/
theorem example_tree_root_count_ne_two :
    getNumOfDescendants
      (⟨["root", "child1", "child2", "grand0", "grand1", "grand2", "grand3", "grand4"],
        [0, 0, 0, 1, 1, 1, 2, 2]⟩ : FlatTree String) 0 ≠ 2 := by
  decide

/-- C2 (amended): on the tree built from
`values=[root,child1,child2,grand0,...,grand4]`, `parent_of=[0,0,0,1,1,1,2,2]`:
`descendant_count(0) = 3` (not 2: the root's self-entry is counted),
`descendant_count(1) = 3`, `descendant_count(2) = 2`, `is_leaf(3) = true`,
`is_leaf(0) = false`, and `parent_index(5) = 1`. -/
theorem example_tree_queries :
    getNumOfDescendants
      (⟨["root", "child1", "child2", "grand0", "grand1", "grand2", "grand3", "grand4"],
        [0, 0, 0, 1, 1, 1, 2, 2]⟩ : FlatTree String) 0 = 3 ∧
    getNumOfDescendants
      (⟨["root", "child1", "child2", "grand0", "grand1", "grand2", "grand3", "grand4"],
        [0, 0, 0, 1, 1, 1, 2, 2]⟩ : FlatTree String) 1 = 3 ∧
    getNumOfDescendants
      (⟨["root", "child1", "child2", "grand0", "grand1", "grand2", "grand3", "grand4"],
        [0, 0, 0, 1, 1, 1, 2, 2]⟩ : FlatTree String) 2 = 2 ∧
    isLeaf
      (⟨["root", "child1", "child2", "grand0", "grand1", "grand2", "grand3", "grand4"],
        [0, 0, 0, 1, 1, 1, 2, 2]⟩ : FlatTree String) 3 = true ∧
    isLeaf
      (⟨["root", "child1", "child2", "grand0", "grand1", "grand2", "grand3", "grand4"],
        [0, 0, 0, 1, 1, 1, 2, 2]⟩ : FlatTree String) 0 = false ∧
    getParentIndex
      (⟨["root", "child1", "child2", "grand0", "grand1", "grand2", "grand3", "grand4"],
        [0, 0, 0, 1, 1, 1, 2, 2]⟩ : FlatTree String) 5 = 1 :=
  ⟨rfl, rfl, rfl, rfl, rfl, rfl⟩

/-- C3 (code bug): on the tree with `parent_of = [0,0,1,0,1]`, node 4 is a
descendant of node 1 (`parent_of[4] = 1`), yet after `remove(1)` returns
`true` the surviving tree still holds that node's value `d` at index 2 with
parent index 1 — a prior descendant of the removed subtree remains reachable
(and the non-descendant `c` was removed instead): the removal loop walks a
stale index snapshot while swap-with-last reassigns indices. -/
theorem remove_leaves_descendant_alive :
    remove (⟨["r", "a", "b", "c", "d"], [0, 0, 1, 0, 1]⟩ : FlatTree String) 1
      = some (true, ⟨["r", "a", "d"], [0, 0, 1]⟩) ∧
    (⟨["r", "a", "b", "c", "d"], [0, 0, 1, 0, 1]⟩ : FlatTree String).parent[4]?
      = some 1 ∧
    (⟨["r", "a", "b", "c", "d"], [0, 0, 1, 0, 1]⟩ : FlatTree String).data[4]?
      = some "d" ∧
    (⟨["r", "a", "d"], [0, 0, 1]⟩ : FlatTree String).data[2]? = some "d" ∧
    (⟨["r", "a", "d"], [0, 0, 1]⟩ : FlatTree String).parent[2]? = some 1 :=
  ⟨rfl, rfl, rfl, rfl, rfl⟩

/-- C4 counterexample: the `std::vector` constructor specialization accepts two
equal-length sequences whose first parent entry is nonzero — construction does
not fail for that container choice. -/
theorem vector_construction_accepts_bad_root :
    fromSequencesVector ["a", "b"] [1, 0]
      = Except.ok (⟨["a", "b"], [1, 0]⟩ : FlatTree String) ∧
    (([1, 0] : List Nat)[0]? = some 1) :=
  ⟨rfl, rfl⟩

/-- C4 (amended): the generic-container constructor succeeds exactly when the
lengths match and `parent_of[0] = 0`, failing with a length-mismatch or
invalid-root error respectively; the `std::vector`/`std::initializer_list`
specialization checks only the lengths, so it accepts equal-length input with
a nonzero first parent entry. -/
theorem construction_checks (data : List α) (parent : List Nat) :
    ((∃ t, fromSequencesGeneric data parent = .ok t) ↔
      data.length = parent.length ∧ parent[0]? = some 0) ∧
    ((∃ t, fromSequencesVector data parent = .ok t) ↔
      data.length = parent.length) ∧
    (fromSequencesGeneric data parent = .error .lengthMismatch ↔
      data.length ≠ parent.length) ∧
    (fromSequencesVector data parent = .error .lengthMismatch ↔
      data.length ≠ parent.length) ∧
    (fromSequencesGeneric data parent = .error .invalidRoot ↔
      data.length = parent.length ∧ parent[0]? ≠ some 0) := by
  unfold fromSequencesGeneric fromSequencesVector
  by_cases h1 : data.length = parent.length <;>
    by_cases h2 : parent[0]? = some 0 <;>
      simp [h1, h2]

/-- C10: on every tree whose root parent entry is `0` — including the trivial
single-node tree — `doesIndexExist(0)` is true, `getNumOfDescendants(0)` is at
least 1, and `isLeaf(0)` is false: the root's self-referential entry at index 0
is itself counted by the parent-sequence scans. -/
theorem root_never_leaf (t : FlatTree α) (h : t.parent[0]? = some 0) :
    doesIndexExist t 0 = true ∧ 1 ≤ getNumOfDescendants t 0 ∧
      isLeaf t 0 = false := by
  have hmem : 0 ∈ t.parent := mem_of_getElem_eq_some h
  have hcount : 0 < t.parent.count 0 := List.count_pos_iff.mpr hmem
  refine ⟨?_, ?_, ?_⟩
  · rw [doesIndexExist_eq_contains]
    simpa using hmem
  · rw [getNumOfDescendants_eq_count]
    omega
  · rw [isLeaf, getNumOfDescendants_eq_count]
    simp only [beq_eq_false_iff_ne]
    omega

/-- C10 witness: the trivial single-node tree. -/
theorem root_never_leaf_witness :
    ((⟨["r"], [0]⟩ : FlatTree String).parent[0]? = some 0) ∧
    (doesIndexExist (⟨["r"], [0]⟩ : FlatTree String) 0 = true ∧
      1 ≤ getNumOfDescendants (⟨["r"], [0]⟩ : FlatTree String) 0 ∧
      isLeaf (⟨["r"], [0]⟩ : FlatTree String) 0 = false) :=
  ⟨rfl, root_never_leaf _ rfl⟩

/-- C7: on a valid tree, calling `remove` on a non-root node with no
first-generation descendants (a leaf) returns false and leaves the tree
unchanged: the descendant-collection step finds nothing and removal never
proceeds. -/
theorem remove_leaf_fails (t : FlatTree α) (i : Nat) (hv : isValid t = true)
    (h0 : i ≠ 0) (hi : i < t.data.length) (hleaf : isLeaf t i = true) :
    remove t i = some (false, t) := by
  obtain ⟨hlen, hroot⟩ := (isValid_iff t).mp hv
  have hcount : t.parent.count i = 0 := by
    rw [isLeaf, getNumOfDescendants_eq_count] at hleaf
    simpa using hleaf
  have hkids : kidsOf t i = [] :=
    kidsOf_eq_nil_of_not_mem t i (List.count_eq_zero.mp hcount)
  have hcond : ¬(t.parent.length ≤ i ∨ isValid t = false) := by
    push_neg
    exact ⟨by omega, by simp [hv]⟩
  rw [remove, if_neg hcond]
  have hg : getAllDescendants t i [] = some (false, []) := by
    rw [getAllDescendants]
    simp [gadAux, h0, getDescendants_of_valid t i [] hv h0, hkids]
  rw [hg]

/-- C7 witness: removing the leaf node 1 of a two-node tree fails and
changes nothing. -/
theorem remove_leaf_fails_witness :
    remove (⟨["r", "a"], [0, 0]⟩ : FlatTree String) 1
      = some (false, ⟨["r", "a"], [0, 0]⟩) :=
  remove_leaf_fails _ 1 (by decide) (by decide) (by decide) (by decide)

/-- C8: `insert` returns false with neither sequence modified when the parent
index is out of range or the tree is invalid; otherwise it returns true,
appends the value and the parent index, the length grows by exactly one, and
the new node `len()-1` has the given parent. -/
theorem insert_spec (t : FlatTree α) (p : Nat) (v : α) :
    ((t.data.length ≤ p ∨ isValid t = false) → insert t p v = (false, t)) ∧
    (p < t.data.length → isValid t = true →
      (insert t p v).1 = true ∧
      (insert t p v).2.data = t.data ++ [v] ∧
      (insert t p v).2.parent = t.parent ++ [p] ∧
      (insert t p v).2.data.length = t.data.length + 1 ∧
      getParentIndex (insert t p v).2 ((insert t p v).2.data.length - 1) = p) := by
  constructor
  · intro h
    rcases h with h | h
    · by_cases hv : isValid t = true
      · have hlen := ((isValid_iff t).mp hv).1
        rw [insert, if_pos (Or.inl (by omega))]
      · rw [insert, if_pos (Or.inr (by revert hv; cases isValid t <;> simp))]
    · rw [insert, if_pos (Or.inr h)]
  · intro hp hv
    obtain ⟨hlen, hroot⟩ := (isValid_iff t).mp hv
    have h0 : 0 < t.data.length := by
      obtain ⟨hlt, _⟩ := List.getElem?_eq_some.mp hroot
      omega
    have hcond : ¬(t.parent.length ≤ p ∨ isValid t = false) := by
      push_neg
      exact ⟨by omega, by simp [hv]⟩
    rw [insert, if_neg hcond]
    refine ⟨rfl, rfl, rfl, by simp, ?_⟩
    rw [getParentIndex]
    simp only [List.length_append, List.length_cons, List.length_nil,
      Nat.add_sub_cancel]
    rw [if_pos h0, List.getD_eq_getElem?_getD, hlen,
      List.getElem?_concat_length]
    rfl

/-- C8 witness: inserting under the root of the trivial tree. -/
theorem insert_spec_witness :
    (insert (⟨["r"], [0]⟩ : FlatTree String) 0 "x").1 = true ∧
    (insert (⟨["r"], [0]⟩ : FlatTree String) 0 "x").2.data = ["r", "x"] ∧
    (insert (⟨["r"], [0]⟩ : FlatTree String) 0 "x").2.parent = [0, 0] ∧
    (insert (⟨["r"], [0]⟩ : FlatTree String) 0 "x").2.data.length = 2 ∧
    getParentIndex (insert (⟨["r"], [0]⟩ : FlatTree String) 0 "x").2 1 = 0 := by
  obtain ⟨h1, h2, h3, h4, h5⟩ :=
    (insert_spec (⟨["r"], [0]⟩ : FlatTree String) 0 "x").2 (by decide) (by decide)
  exact ⟨h1, h2, h3, h4, h5⟩

/-- C9: `getDescendants(0, out)` returns false and leaves the output sequence
unchanged on every tree; on a valid tree with `parent ≠ 0` it appends exactly
the indices whose parent entry equals `parent`, in ascending index order,
returns true exactly when at least one exists, and returns false with the
output unchanged when none exists. -/
theorem children_of_spec (t : FlatTree α) (p : Nat) (acc : List Nat) :
    getDescendants t 0 acc = (false, acc) ∧
    (isValid t = true → p ≠ 0 →
      ((getDescendants t p acc).2 = acc ++ kidsOf t p ∧
       (∀ k, k ∈ kidsOf t p ↔ t.parent[k]? = some p) ∧
       (kidsOf t p).Pairwise (· < ·) ∧
       ((getDescendants t p acc).1 = true ↔ kidsOf t p ≠ []) ∧
       (kidsOf t p = [] → getDescendants t p acc = (false, acc)))) := by
  refine ⟨getDescendants_root t acc, ?_⟩
  intro hv hp
  obtain ⟨hlen, hroot⟩ := (isValid_iff t).mp hv
  rw [getDescendants_of_valid t p acc hv hp]
  refine ⟨rfl, ?_, kidsOf_sorted t p, ?_, ?_⟩
  · intro k
    rw [mem_kidsOf]
    constructor
    · rintro ⟨_, _, h3⟩
      exact h3
    · intro h
      obtain ⟨hlt, _⟩ := List.getElem?_eq_some.mp h
      refine ⟨by omega, ?_, h⟩
      rintro rfl
      rw [hroot] at h
      exact hp (Option.some.inj h).symm
  · rcases hke : kidsOf t p with _ | ⟨a, l⟩ <;> simp
  · intro hk
    rw [hk]
    simp

/-- C9 witness: querying the children of node 1 in a three-node chain. -/
theorem children_of_spec_witness :
    getDescendants (⟨["r", "a", "b"], [0, 0, 1]⟩ : FlatTree String) 0 []
      = (false, []) ∧
    (getDescendants (⟨["r", "a", "b"], [0, 0, 1]⟩ : FlatTree String) 1 []).2
      = [] ++ kidsOf (⟨["r", "a", "b"], [0, 0, 1]⟩ : FlatTree String) 1 ∧
    ((getDescendants (⟨["r", "a", "b"], [0, 0, 1]⟩ : FlatTree String) 1 []).1 = true ↔
      kidsOf (⟨["r", "a", "b"], [0, 0, 1]⟩ : FlatTree String) 1 ≠ []) := by
  obtain ⟨h0, h⟩ :=
    children_of_spec (⟨["r", "a", "b"], [0, 0, 1]⟩ : FlatTree String) 1 []
  obtain ⟨h1, _, _, h4, _⟩ := h (by decide) (by decide)
  exact ⟨h0, h1, h4⟩

/-- C1 counterexample: on a two-node tree `remove(0)` returns true and removes
the non-root node — it does not report failure, and the tree changes. -/
theorem remove_root_counterexample :
    remove (⟨["a", "b"], [0, 0]⟩ : FlatTree String) 0
      = some (true, ⟨["a"], [0]⟩) ∧
    (⟨["a"], [0]⟩ : FlatTree String) ≠ ⟨["a", "b"], [0, 0]⟩ :=
  ⟨rfl, by decide⟩

/-- C1 (amended): on a valid tree, `remove(0)` returns false and leaves the
tree unchanged exactly when the tree is trivial (no non-root node exists);
when the root has at least one node below it, `remove(0)` returns true and
removes every non-root node, leaving only the root with its value. -/
theorem remove_root_behavior (t : FlatTree α) (hv : isValid t = true) :
    (t.data.length = 1 → remove t 0 = some (false, t)) ∧
    (2 ≤ t.data.length → ∃ r, t.data[0]? = some r ∧
      remove t 0 = some (true, ⟨[r], [0]⟩)) := by
  obtain ⟨hlen, hroot⟩ := (isValid_iff t).mp hv
  obtain ⟨hlt0, hval0⟩ := List.getElem?_eq_some.mp hroot
  have hcond : ¬(t.parent.length ≤ 0 ∨ isValid t = false) := by
    push_neg
    exact ⟨by omega, by simp [hv]⟩
  constructor
  · intro h1
    rw [remove, if_neg hcond, getAllDescendants_from_root, h1]
    simp
  · intro h2
    rcases hd0 : t.data[0]? with _ | r
    · rw [List.getElem?_eq_none_iff] at hd0
      omega
    refine ⟨r, rfl, ?_⟩
    rw [remove, if_neg hcond, getAllDescendants_from_root,
      decide_eq_true h2]
    obtain ⟨hf1, hf2, hf3, hf4⟩ := foldl_remove_node
      (List.range' 1 (t.data.length - 1)) t
      (fun k hk => by rw [List.mem_range'_1] at hk; omega)
      hlen
      (by rw [List.length_range']; omega)
    have hlen1 : ((List.range' 1 (t.data.length - 1)).foldl
        remove_node t).data.length = 1 := by
      rw [hf1, List.length_range']
      omega
    have hlenp1 : ((List.range' 1 (t.data.length - 1)).foldl
        remove_node t).parent.length = 1 := by
      rw [hf2, List.length_range']
      omega
    have hdata : ((List.range' 1 (t.data.length - 1)).foldl
        remove_node t).data = [r] :=
      list_eq_singleton hlen1 (by rw [hf3, hd0])
    have hparent : ((List.range' 1 (t.data.length - 1)).foldl
        remove_node t).parent = [0] :=
      list_eq_singleton hlenp1 (by rw [hf4, hroot])
    have hteq : (List.range' 1 (t.data.length - 1)).foldl remove_node t
        = (⟨[r], [0]⟩ : FlatTree α) :=
      flatTree_ext hdata hparent
    exact congrArg (fun ds => some (true, ds)) hteq

/-- C1 witness: a two-node tree, exercising the succeeding branch. -/
theorem remove_root_behavior_witness :
    remove (⟨["a", "b"], [0, 0]⟩ : FlatTree String) 0
      = some (true, ⟨["a"], [0]⟩) := by
  obtain ⟨r, hr, h⟩ :=
    (remove_root_behavior (⟨["a", "b"], [0, 0]⟩ : FlatTree String)
      (by decide)).2 (by decide)
  have h2 : "a" = r := Option.some.inj hr
  cases h2
  exact h

/-- C5 counterexample: starting from the validly constructed trivial tree, the
single public call `resize(0)` empties both sequences, so the invariants
`len(values) >= 1` and `parent_of[0] == 0` no longer hold afterwards. -/
theorem resize_zero_breaks_invariant :
    invariant (⟨["r"], [0]⟩ : FlatTree String) ∧
    ¬ invariant (resize (⟨["r"], [0]⟩ : FlatTree String) 0 "x") :=
  ⟨by decide, by decide⟩

/-- C5 (amended): starting from a tree satisfying the invariants, every
`insert` call, every terminating `remove` call, every `clear` call, and every
`resize(n)` call with `n ≥ 1` yields a tree that again satisfies
`len(values) = len(parent_of)`, `len(values) ≥ 1` and `parent_of[0] = 0`;
`resize(0)` is the one escape hatch that can break them. -/
theorem invariants_preserved (t : FlatTree α) (hv : invariant t) :
    (∀ p v, invariant (insert t p v).2) ∧
    (∀ i b t', remove t i = some (b, t') → invariant t') ∧
    invariant (clear t) ∧
    (∀ n d, 1 ≤ n → invariant (resize t n d)) := by
  obtain ⟨hlen, hpos, hroot⟩ := hv
  have hvb : isValid t = true := (invariant_iff_isValid t).mp ⟨hlen, hpos, hroot⟩
  refine ⟨?_, ?_, ?_, ?_⟩
  · intro p v
    rw [insert]
    split
    · exact ⟨hlen, hpos, hroot⟩
    · refine ⟨by simp [hlen], by simp, ?_⟩
      show (t.parent ++ [p])[0]? = some 0
      rw [List.getElem?_append, if_pos (by omega), hroot]
  · intro i b t' h
    rw [remove] at h
    by_cases hc : (t.parent.length ≤ i ∨ isValid t = false)
    · rw [if_pos hc] at h
      simp only [Option.some.injEq, Prod.mk.injEq] at h
      rw [← h.2]
      exact ⟨hlen, hpos, hroot⟩
    · rw [if_neg hc] at h
      by_cases hi : i = 0
      · subst hi
        rw [getAllDescendants_from_root] at h
        by_cases h2 : 2 ≤ t.data.length
        · rw [decide_eq_true h2] at h
          have h' : some (true, (List.range' 1 (t.data.length - 1)).foldl
              remove_node t) = some (b, t') := h
          simp only [Option.some.injEq, Prod.mk.injEq] at h'
          rw [← h'.2]
          obtain ⟨hf1, hf2, hf3, hf4⟩ := foldl_remove_node
            (List.range' 1 (t.data.length - 1)) t
            (fun k hk => by rw [List.mem_range'_1] at hk; omega)
            hlen
            (by rw [List.length_range']; omega)
          refine ⟨by rw [hf1, hf2, hlen], ?_, by rw [hf4, hroot]⟩
          rw [hf1, List.length_range']
          omega
        · rw [decide_eq_false h2] at h
          have h' : some (false, t) = some (b, t') := h
          simp only [Option.some.injEq, Prod.mk.injEq] at h'
          rw [← h'.2]
          exact ⟨hlen, hpos, hroot⟩
      · rcases hg : getAllDescendants t i [] with _ | ⟨gb, ds⟩
        · rw [hg] at h
          cases h
        · rw [hg] at h
          cases gb with
          | false =>
            have h' : some (false, t) = some (b, t') := h
            simp only [Option.some.injEq, Prod.mk.injEq] at h'
            rw [← h'.2]
            exact ⟨hlen, hpos, hroot⟩
          | true =>
            have h' : some (true, ds.foldl remove_node t) = some (b, t') := h
            simp only [Option.some.injEq, Prod.mk.injEq] at h'
            rcases gadAux_ok_char t hvb (t.data.length + 1) i [] true ds hi
                (by simp) hg with ⟨hfb, _, _⟩ | ⟨_, hne, hds, _⟩
            · cases hfb
            · rw [List.nil_append] at hds
              subst hds
              have hkl := kidsOf_length_lt t i hpos
              obtain ⟨hf1, hf2, hf3, hf4⟩ := foldl_remove_node (kidsOf t i) t
                (fun k hk => ((mem_kidsOf t i k).mp hk).2.1) hlen hkl
              rw [← h'.2]
              refine ⟨by rw [hf1, hf2, hlen], ?_, by rw [hf4, hroot]⟩
              rw [hf1]
              omega
  · rcases hd : t.data with _ | ⟨r, rest⟩
    · rw [hd] at hpos
      simp at hpos
    · exact ⟨by simp [clear, hd], by simp [clear, hd], by simp [clear]⟩
  · intro n d hn
    have hp1 : 1 ≤ t.parent.length := by omega
    refine ⟨?_, ?_, ?_⟩
    · show (resizeList t.data n d).length = (resizeList t.parent n 0).length
      rw [resizeList_length, resizeList_length]
    · show 1 ≤ (resizeList t.data n d).length
      rw [resizeList_length]
      omega
    · show (resizeList t.parent n 0)[0]? = some 0
      rw [resizeList, List.getElem?_append,
        if_pos (by simp [List.length_take]; omega),
        List.getElem?_take, if_pos (by omega), hroot]

/-- C5 witness: the preserved invariant after `clear` on the trivial tree. -/
theorem invariants_preserved_witness :
    invariant (clear (⟨["r"], [0]⟩ : FlatTree String)) :=
  (invariants_preserved (⟨["r"], [0]⟩ : FlatTree String) (by decide)).2.2.1

/-- C6 counterexample: on the trivial single-node tree,
`getAllDescendants(0, out)` returns false although the queried parent is the
root — the claimed equivalence "returns false iff parent ≠ 0 and parent has no
children" fails at `parent = 0`. -/
theorem all_descendants_trivial_root_false :
    getAllDescendants (⟨["r"], [0]⟩ : FlatTree String) 0 [] = some (false, []) ∧
    ¬((0 : Nat) ≠ 0 ∧ kidsOf (⟨["r"], [0]⟩ : FlatTree String) 0 = []) :=
  ⟨rfl, by decide⟩

/-- C6 (amended): `getAllDescendants(0, out)` appends every non-root index
`1..len()-1` in ascending storage order, returning true exactly when such an
index exists; and on a valid tree, a terminating call returns false exactly
when either the queried parent is a non-root node without children, or it is
the root of a trivial tree. -/
theorem all_descendants_spec (t : FlatTree α) (p : Nat) :
    (∀ acc, getAllDescendants t 0 acc =
      some (decide (2 ≤ t.data.length),
        acc ++ List.range' 1 (t.data.length - 1))) ∧
    (isValid t = true → ∀ b ds, getAllDescendants t p [] = some (b, ds) →
      (b = false ↔ (p ≠ 0 ∧ kidsOf t p = []) ∨
        (p = 0 ∧ t.data.length ≤ 1))) := by
  refine ⟨fun acc => getAllDescendants_from_root t acc, ?_⟩
  intro hv b ds h
  by_cases hp : p = 0
  · subst hp
    rw [getAllDescendants_from_root] at h
    simp only [Option.some.injEq, Prod.mk.injEq] at h
    rw [← h.1]
    simp [decide_eq_false_iff_not]
    omega
  · rcases gadAux_ok_char t hv (t.data.length + 1) p [] b ds hp (by simp) h
        with ⟨hb, _, hk⟩ | ⟨hb, hk, _, _⟩
    · subst hb
      simp [hp, hk]
    · subst hb
      simp [hp, hk]

/-- C6 witness: the root part on a two-node tree and the non-root part on its
leaf node 1. -/
theorem all_descendants_spec_witness :
    getAllDescendants (⟨["r", "a"], [0, 0]⟩ : FlatTree String) 0 []
      = some (decide (2 ≤ (⟨["r", "a"], [0, 0]⟩ : FlatTree String).data.length),
          [] ++ List.range' 1
            ((⟨["r", "a"], [0, 0]⟩ : FlatTree String).data.length - 1)) ∧
    (false = false ↔
      ((1 : Nat) ≠ 0 ∧ kidsOf (⟨["r", "a"], [0, 0]⟩ : FlatTree String) 1 = []) ∨
      ((1 : Nat) = 0 ∧
        (⟨["r", "a"], [0, 0]⟩ : FlatTree String).data.length ≤ 1)) := by
  obtain ⟨ha, hb⟩ := all_descendants_spec (⟨["r", "a"], [0, 0]⟩ : FlatTree String) 1
  exact ⟨ha [], hb (by decide) false [] rfl⟩

end FlatTree
